import Mathlib

/-!
Verification of the local series-expansion engine (local_expansion.h).

The file shallowly embeds the class LocalExpansion and its operations:
AccumulateCoeffs, EvaluateField, Init (both overloads), OrderForEvaluating,
TranslateFromFarField and TranslateToLocal.  Machine doubles are modelled by
exact rationals, external collaborators (the SeriesExpansionAux table, the
kernel-derivative generator, the math library) by abstract structures of
functions, so every theorem holds for all behaviours of those collaborators
unless a hypothesis says otherwise.
-/

/-- Abstract model of the precomputed SeriesExpansionAux table.  Only the
read-only accessors used by local_expansion.h appear.  The field
invMultiindexFactorials is aliased by TranslateToLocal but never read in its
loop; it is kept for completeness. -/
structure SeriesExpansionAux where
  dim : ℕ
  maxOrder : ℤ
  maxTotalNumCoeffs : ℕ
  totalNumCoeffs : ℤ → ℤ
  multiindex : ℕ → List ℤ
  negInvMultiindexFactorials : ℕ → ℚ
  invMultiindexFactorials : ℕ → ℚ
  factorial : ℤ → ℚ
  upperMappingIndex : ℕ → List ℕ
  nMultichooseKByPos : ℕ → ℕ → ℚ

/-- Abstract model of the kernel-derivative generator (template parameter
TKernelDerivative).  ComputePartialDerivative models the composition of
ComputeDirectionalDerivatives on a scaled displacement followed by the lookup
ComputePartialDerivative at a multi-index; the generator is external to the
repository so only this composite enters the semantics. -/
structure KernelDerivative where
  BandwidthFactor : ℚ → ℚ
  ComputePartialDerivative : List ℚ → List ℤ → ℚ

/-- Abstract model of the kernel object (template parameter TKernel): the map
from the bandwidth given to kernel.Init to the value reported by
kernel.bandwidth_sq. -/
structure KernelModel where
  bandwidthSqOf : ℚ → ℚ

/-- Abstract model of the math library functions exp and sqrt used by
OrderForEvaluating; they are external to the repository. -/
structure MathFns where
  rexp : ℚ → ℚ
  rsqrt : ℚ → ℚ

/-- State of a LocalExpansion object: the squared bandwidth reported by the
kernel member, the center, the coefficient buffer and the truncation order. -/
structure LocalExpansion where
  kernelBwSq : ℚ
  center : List ℚ
  coeffs : List ℚ
  order : ℤ

/-- State of a FarFieldExpansion, seen through its read-only accessors
bandwidth_sq, get_center, get_coeffs and get_order. -/
structure FarFieldExpansion where
  bwSq : ℚ
  center : List ℚ
  coeffs : List ℚ
  order : ℤ

/-- The loop for j below tnc do coeffs at j += delta j, starting at index i. -/
def addIntoAux (delta : ℕ → ℚ) (tnc : ℕ) : ℕ → List ℚ → List ℚ
  | _, [] => []
  | i, c :: cs => (if i < tnc then c + delta i else c) :: addIntoAux delta tnc (i + 1) cs

/-- The loop for j below tnc do coeffs at j += delta j. -/
def addInto (coeffs : List ℚ) (tnc : ℕ) (delta : ℕ → ℚ) : List ℚ :=
  addIntoAux delta tnc 0 coeffs

theorem addIntoAux_length (delta : ℕ → ℚ) (tnc : ℕ) :
    ∀ (cs : List ℚ) (i : ℕ), (addIntoAux delta tnc i cs).length = cs.length := by
  intro cs
  induction cs with
  | nil => intro i; rfl
  | cons c cs ih => intro i; simp [addIntoAux, ih]

@[simp] theorem addInto_length (coeffs : List ℚ) (tnc : ℕ) (delta : ℕ → ℚ) :
    (addInto coeffs tnc delta).length = coeffs.length :=
  addIntoAux_length delta tnc coeffs 0

theorem addIntoAux_getD (delta : ℕ → ℚ) (tnc : ℕ) :
    ∀ (cs : List ℚ) (i j : ℕ), j < cs.length →
      (addIntoAux delta tnc i cs).getD j 0 =
        cs.getD j 0 + (if i + j < tnc then delta (i + j) else 0) := by
  intro cs
  induction cs with
  | nil => intro i j h; simp at h
  | cons c cs ih =>
    intro i j h
    cases j with
    | zero => simp [addIntoAux]; split <;> simp
    | succ j =>
      simp only [addIntoAux, List.getD_cons_succ]
      rw [ih (i + 1) j (by simpa using h)]
      have : i + 1 + j = i + (j + 1) := by omega
      rw [this]

theorem addInto_getD (coeffs : List ℚ) (tnc : ℕ) (delta : ℕ → ℚ) (j : ℕ)
    (h : j < coeffs.length) :
    (addInto coeffs tnc delta).getD j 0 =
      coeffs.getD j 0 + (if j < tnc then delta j else 0) := by
  have := addIntoAux_getD delta tnc coeffs 0 j h
  simpa using this

/-- The scaled displacement from a reference point to the expansion center
computed inside the r-loop of AccumulateCoeffs. -/
def accDisplacement (sea : SeriesExpansionAux) (kd : KernelDerivative)
    (st : LocalExpansion) (data : ℕ → ℕ → ℚ) (r : ℕ) : List ℚ :=
  (List.range sea.dim).map
    (fun d => (st.center.getD d 0 - data d r) / kd.BandwidthFactor st.kernelBwSq)

/-- Per-point, per-index contribution added by AccumulateCoeffs: the signed
inverse multi-index factorial times the weight times the partial derivative. -/
def accDelta (sea : SeriesExpansionAux) (kd : KernelDerivative)
    (st : LocalExpansion) (data : ℕ → ℕ → ℚ) (weights : ℕ → ℚ) (r j : ℕ) : ℚ :=
  sea.negInvMultiindexFactorials j * weights r *
    kd.ComputePartialDerivative (accDisplacement sea kd st data r) (sea.multiindex j)

/-- The outer loop of AccumulateCoeffs over the reference points, cnt points
starting at point index r. -/
def accPoints (tnc : ℕ) (delta : ℕ → ℕ → ℚ) : ℕ → ℕ → List ℚ → List ℚ
  | _, 0, coeffs => coeffs
  | r, cnt + 1, coeffs => accPoints tnc delta (r + 1) cnt (addInto coeffs tnc (delta r))

/-- LocalExpansion::AccumulateCoeffs.  Raises the order to the requested order
when larger, then for every point in the range adds its contribution into the
first get_total_num_coeffs(order) coefficients. -/
def AccumulateCoeffs (sea : SeriesExpansionAux) (kd : KernelDerivative)
    (data : ℕ → ℕ → ℚ) (weights : ℕ → ℚ) (bIdx eIdx : ℕ) (ord : ℤ)
    (st : LocalExpansion) : LocalExpansion :=
  { st with
    order := if st.order < ord then ord else st.order
    coeffs := accPoints (sea.totalNumCoeffs ord).toNat
      (accDelta sea kd st data weights) bIdx (eIdx - bIdx) st.coeffs }

/-- LocalExpansion::Init with an explicit center. -/
def Init (K : KernelModel) (sea : SeriesExpansionAux) (bandwidth : ℚ)
    (center : List ℚ) : LocalExpansion :=
  { kernelBwSq := K.bandwidthSqOf bandwidth
    center := center
    order := 0
    coeffs := List.replicate sea.maxTotalNumCoeffs 0 }

/-- LocalExpansion::Init without a center.  Modelled from the spec: the fastlib
call Vector::Init(dimension) that allocates the center buffer is not part of
the sources given here; the spec states that this overload leaves the center
as the zero vector of the ambient dimension. -/
def InitNoCenter (K : KernelModel) (sea : SeriesExpansionAux) (bandwidth : ℚ) :
    LocalExpansion :=
  { kernelBwSq := K.bandwidthSqOf bandwidth
    center := List.replicate sea.dim 0
    order := 0
    coeffs := List.replicate sea.maxTotalNumCoeffs 0 }

/-- The component-wise sum beta + alpha of two multi-indices over dim
dimensions, as built by TranslateFromFarField. -/
def betaPlusAlpha (dim : ℕ) (beta alpha : List ℤ) : List ℤ :=
  (List.range dim).map (fun d => beta.getD d 0 + alpha.getD d 0)

/-- The scaled center difference computed by TranslateFromFarField; note the
bandwidth factor comes from the far-field expansion. -/
def ffCentDiff (sea : SeriesExpansionAux) (kd : KernelDerivative)
    (destCenter : List ℚ) (se : FarFieldExpansion) : List ℚ :=
  (List.range sea.dim).map
    (fun d => (destCenter.getD d 0 - se.center.getD d 0) / kd.BandwidthFactor se.bwSq)

/-- One product term of the double loop of TranslateFromFarField: source
coefficient k times the partial derivative at the multi-index sum beta + alpha
of destination index j and source index k. -/
def ffProd (sea : SeriesExpansionAux) (kd : KernelDerivative)
    (destCenter : List ℚ) (se : FarFieldExpansion) (j k : ℕ) : ℚ :=
  se.coeffs.getD k 0 *
    kd.ComputePartialDerivative (ffCentDiff sea kd destCenter se)
      (betaPlusAlpha sea.dim (sea.multiindex j) (sea.multiindex k))

/-- The split positive/negative accumulation over f 0, ..., f (n-1): positive
products go to the first component, the rest to the second. -/
def posNegSum (f : ℕ → ℚ) : ℕ → ℚ × ℚ
  | 0 => (0, 0)
  | k + 1 =>
    (if 0 < f k then ((posNegSum f k).1 + f k, (posNegSum f k).2)
     else ((posNegSum f k).1, (posNegSum f k).2 + f k))

theorem posNegSum_add (f : ℕ → ℚ) :
    ∀ n, (posNegSum f n).1 + (posNegSum f n).2 = ∑ k ∈ Finset.range n, f k := by
  intro n
  induction n with
  | zero => simp [posNegSum]
  | succ n ih =>
    rw [Finset.sum_range_succ, ← ih]
    simp only [posNegSum]
    split <;> ring

/-- LocalExpansion::TranslateFromFarField.  The order is raised to the
far-field order when larger; the coefficient loop bound is the coefficient
count of the far-field order (computed before the raise). -/
def TranslateFromFarField (sea : SeriesExpansionAux) (kd : KernelDerivative)
    (se : FarFieldExpansion) (st : LocalExpansion) : LocalExpansion :=
  { st with
    order := if st.order < se.order then se.order else st.order
    coeffs := addInto st.coeffs (sea.totalNumCoeffs se.order).toNat
      (fun j =>
        ((posNegSum (ffProd sea kd st.center se j) (sea.totalNumCoeffs se.order).toNat).1 +
         (posNegSum (ffProd sea kd st.center se j) (sea.totalNumCoeffs se.order).toNat).2) *
        sea.negInvMultiindexFactorials j) }

/-- The per-index contribution TranslateFromFarField adds into the destination
buffer, written as a plain sum over the source multi-indices.  It depends only
on the table, the generator, the destination center and the source. -/
def ffContribution (sea : SeriesExpansionAux) (kd : KernelDerivative)
    (destCenter : List ℚ) (se : FarFieldExpansion) (j : ℕ) : ℚ :=
  if j < (sea.totalNumCoeffs se.order).toNat then
    (∑ k ∈ Finset.range (sea.totalNumCoeffs se.order).toNat,
      ffProd sea kd destCenter se j k) * sea.negInvMultiindexFactorials j
  else 0

/-- The test of TranslateToLocal that some component of beta - alpha is
negative, in which case the contributor is skipped. -/
def hasNegDiff (dim : ℕ) (beta alpha : List ℤ) : Prop :=
  ∃ l ∈ List.range dim, beta.getD l 0 - alpha.getD l 0 < 0

instance (dim : ℕ) (beta alpha : List ℤ) : Decidable (hasNegDiff dim beta alpha) := by
  unfold hasNegDiff; infer_instance

/-- The scaled center difference computed by TranslateToLocal; the bandwidth
factor comes from the kernel of the source expansion. -/
def llCentDiff (sea : SeriesExpansionAux) (kd : KernelDerivative)
    (src : LocalExpansion) (destCenter : List ℚ) : List ℚ :=
  (List.range sea.dim).map
    (fun d => (destCenter.getD d 0 - src.center.getD d 0) / kd.BandwidthFactor src.kernelBwSq)

/-- One product term of TranslateToLocal: source coefficient at the upper
index u times the center difference raised to the exponent difference times
the n-multichoose-k weight for the pair (u, j). -/
def llTerm (sea : SeriesExpansionAux) (kd : KernelDerivative)
    (src : LocalExpansion) (destCenter : List ℚ) (j u : ℕ) : ℚ :=
  src.coeffs.getD u 0 *
    (∏ l ∈ Finset.range sea.dim,
      (llCentDiff sea kd src destCenter).getD l 0 ^
        ((sea.multiindex u).getD l 0 - (sea.multiindex j).getD l 0).toNat) *
    sea.nMultichooseKByPos u j

/-- The k-loop of TranslateToLocal over the precomputed upper mapping list for
destination index j: break at the first entry at or beyond the coefficient
count, skip entries with a negative exponent difference, and accumulate the
rest split by sign. -/
def upperLoop (sea : SeriesExpansionAux) (kd : KernelDerivative)
    (src : LocalExpansion) (destCenter : List ℚ) (tnc j : ℕ) :
    List ℕ → ℚ × ℚ → ℚ × ℚ
  | [], acc => acc
  | u :: rest, acc =>
    if tnc ≤ u then acc
    else if hasNegDiff sea.dim (sea.multiindex u) (sea.multiindex j) then
      upperLoop sea kd src destCenter tnc j rest acc
    else if 0 < llTerm sea kd src destCenter j u then
      upperLoop sea kd src destCenter tnc j rest (acc.1 + llTerm sea kd src destCenter j u, acc.2)
    else
      upperLoop sea kd src destCenter tnc j rest (acc.1, acc.2 + llTerm sea kd src destCenter j u)

/-- LocalExpansion::TranslateToLocal, called as src.TranslateToLocal(se): the
destination se gets its order raised to the order of src when lower, and the
translated coefficients of src are added into the coefficients of se. -/
def TranslateToLocal (sea : SeriesExpansionAux) (kd : KernelDerivative)
    (src se : LocalExpansion) : LocalExpansion :=
  { se with
    order := if se.order < src.order then src.order else se.order
    coeffs := addInto se.coeffs (sea.totalNumCoeffs src.order).toNat
      (fun j =>
        (upperLoop sea kd src se.center (sea.totalNumCoeffs src.order).toNat j
          (sea.upperMappingIndex j) (0, 0)).1 +
        (upperLoop sea kd src se.center (sea.totalNumCoeffs src.order).toNat j
          (sea.upperMappingIndex j) (0, 0)).2) }

/-- The per-index contribution TranslateToLocal adds into the destination
buffer: the sum over the valid upper contributors (up to the first entry at or
beyond the coefficient count, skipping negative exponent differences).  It
depends only on the table, the generator, the source expansion and the
destination center. -/
def llContribution (sea : SeriesExpansionAux) (kd : KernelDerivative)
    (src : LocalExpansion) (destCenter : List ℚ) (j : ℕ) : ℚ :=
  if j < (sea.totalNumCoeffs src.order).toNat then
    (((sea.upperMappingIndex j).takeWhile
        (fun u => decide (u < (sea.totalNumCoeffs src.order).toNat))).map
      (fun u =>
        if hasNegDiff sea.dim (sea.multiindex u) (sea.multiindex j) then 0
        else llTerm sea kd src destCenter j u)).sum
  else 0

theorem upperLoop_add (sea : SeriesExpansionAux) (kd : KernelDerivative)
    (src : LocalExpansion) (destCenter : List ℚ) (tnc j : ℕ) :
    ∀ (l : List ℕ) (acc : ℚ × ℚ),
      (upperLoop sea kd src destCenter tnc j l acc).1 +
        (upperLoop sea kd src destCenter tnc j l acc).2 =
      acc.1 + acc.2 +
        ((l.takeWhile (fun u => decide (u < tnc))).map
          (fun u =>
            if hasNegDiff sea.dim (sea.multiindex u) (sea.multiindex j) then 0
            else llTerm sea kd src destCenter j u)).sum := by
  intro l
  induction l with
  | nil => intro acc; simp [upperLoop]
  | cons u rest ih =>
    intro acc
    by_cases hu : tnc ≤ u
    · have hdec : decide (u < tnc) = false := by simp [hu]
      simp [upperLoop, hu, List.takeWhile_cons, hdec]
    · have hdec : decide (u < tnc) = true := by simp; omega
      by_cases hneg : hasNegDiff sea.dim (sea.multiindex u) (sea.multiindex j)
      · simp only [upperLoop, if_neg hu, if_pos hneg]
        rw [ih]
        simp [List.takeWhile_cons, hdec, hneg]
      · by_cases hpos : 0 < llTerm sea kd src destCenter j u
        · simp only [upperLoop, if_neg hu, if_neg hneg, if_pos hpos]
          rw [ih]
          simp only [List.takeWhile_cons, hdec, if_true, List.map_cons, List.sum_cons,
            if_neg hneg]
          ring
        · simp only [upperLoop, if_neg hu, if_neg hneg, if_neg hpos]
          rw [ih]
          simp only [List.takeWhile_cons, hdec, if_true, List.map_cons, List.sum_cons,
            if_neg hneg]
          ring

/-- The query argument of EvaluateField: either a data matrix with a row
selector or an explicit query point. -/
inductive EvalQuery where
  | matrixRow (data : ℕ → ℕ → ℚ) (rowNum : ℕ)
  | point (xq : List ℚ)

/-- Coordinate i of the query, as read inside the displacement loop of
EvaluateField. -/
def queryCoord (q : EvalQuery) (i : ℕ) : ℚ :=
  match q with
  | .matrixRow data rowNum => data i rowNum
  | .point xq => xq.getD i 0

/-- The MAXINT sentinel stored in the last cell of the heads array by
EvaluateField; the loop never reads that cell. -/
def MAXINTval : ℕ := 2147483647

/-- The innermost j-loop of the monomial recurrence of EvaluateField: for j
from head to tail - 1, write tmp at j times the coordinate into tmp at t.  The
counter n is the remaining number of steps, tail - head. -/
def fillSeg (xi : ℚ) : List ℚ → ℕ → ℕ → ℕ → List ℚ × ℕ
  | tmp, t, _, 0 => (tmp, t)
  | tmp, t, j, n + 1 => fillSeg xi (tmp.set t (tmp.getD j 0 * xi)) (t + 1) (j + 1) n

/-- The i-loop of the monomial recurrence over the dimensions, with cnt
dimensions left to process. -/
def dimLoop (x : List ℚ) (tail : ℕ) :
    List ℕ → List ℚ → ℕ → ℕ → ℕ → List ℕ × List ℚ × ℕ
  | heads, tmp, t, _, 0 => (heads, tmp, t)
  | heads, tmp, t, i, cnt + 1 =>
    dimLoop x tail (heads.set i t)
      (fillSeg (x.getD i 0) tmp t (heads.getD i 0) (tail - heads.getD i 0)).1
      (fillSeg (x.getD i 0) tmp t (heads.getD i 0) (tail - heads.getD i 0)).2
      (i + 1) cnt

/-- The outer k-loop of the monomial recurrence, one level per order from 1 to
the current order; tail is reset to t at the end of each level. -/
def kLoop (x : List ℚ) (dim : ℕ) :
    List ℕ → List ℚ → ℕ → ℕ → ℕ → List ℕ × List ℚ × ℕ
  | heads, tmp, t, _, 0 => (heads, tmp, t)
  | heads, tmp, t, tail, k + 1 =>
    kLoop x dim (dimLoop x tail heads tmp t 0 dim).1 (dimLoop x tail heads tmp t 0 dim).2.1
      (dimLoop x tail heads tmp t 0 dim).2.2 (dimLoop x tail heads tmp t 0 dim).2.2 k

/-- LocalExpansion::EvaluateField.  The vector tmp is allocated without
initialization in the source; the parameter junk supplies its initial
contents, so every theorem below holds for all possible stale memory. -/
def EvaluateField (sea : SeriesExpansionAux) (kd : KernelDerivative)
    (st : LocalExpansion) (q : EvalQuery) (junk : ℕ → ℚ) : ℚ :=
  ∑ i ∈ Finset.range (sea.totalNumCoeffs st.order).toNat,
    st.coeffs.getD i 0 *
      (kLoop
        ((List.range sea.dim).map
          (fun i => (queryCoord q i - st.center.getD i 0) / kd.BandwidthFactor st.kernelBwSq))
        sea.dim
        (List.replicate sea.dim 0 ++ [MAXINTval])
        (((List.range (sea.totalNumCoeffs st.order).toNat).map junk).set 0 1)
        1 1 st.order.toNat).2.1.getD i 0

/-- The widest per-dimension width of an axis-aligned region, as computed by
the d-loop of OrderForEvaluating starting from 0. -/
def widestWidth (region : List (ℚ × ℚ)) : ℚ :=
  region.foldl (fun acc rg => max acc (rg.2 - rg.1)) 0

/-- The ratio r of OrderForEvaluating: widest width over twice the square root
of the squared bandwidth. -/
def regionRatio (M : MathFns) (st : LocalExpansion) (region : List (ℚ × ℚ)) : ℚ :=
  widestWidth region / (2 * M.rsqrt st.kernelBwSq)

/-- The front factor of OrderForEvaluating: exp of minus the minimum squared
distance over four times the squared bandwidth. -/
def frontFactorOf (M : MathFns) (st : LocalExpansion) (minDistSqd : ℚ) : ℚ :=
  M.rexp (-minDistSqd / (4 * st.kernelBwSq))

/-- The test of OrderForEvaluating that a factorial lookup returned the
negative invalid sentinel, for candidate order p: floor and ceiling of p over
the dimension. -/
def factInvalid (sea : SeriesExpansionAux) (dim p : ℕ) : Prop :=
  sea.factorial ((p / dim : ℕ) : ℤ) < 0 ∨ sea.factorial (((p + dim - 1) / dim : ℕ) : ℤ) < 0

instance (sea : SeriesExpansionAux) (dim p : ℕ) : Decidable (factInvalid sea dim p) := by
  unfold factInvalid; infer_instance

/-- The bound term computed in the loop body of OrderForEvaluating at
candidate order p, with rp2 the running power of r after the multiplication
of this iteration. -/
def loopRet (M : MathFns) (sea : SeriesExpansionAux) (ff : ℚ) (dim p : ℕ)
    (rp2 : ℚ) : ℚ :=
  ff * ((sea.totalNumCoeffs ((p : ℤ) + 1) - sea.totalNumCoeffs (p : ℤ) : ℤ) : ℚ) * rp2 /
    M.rsqrt (sea.factorial ((p / dim : ℕ) : ℤ) ^ (dim - p % dim) *
      sea.factorial (((p + dim - 1) / dim : ℕ) : ℤ) ^ (p % dim))

/-- The bound term of OrderForEvaluating at candidate order p, with the
running power written as the explicit power r ^ (p + 1). -/
def retAt (M : MathFns) (sea : SeriesExpansionAux) (ff r : ℚ) (dim p : ℕ) : ℚ :=
  loopRet M sea ff dim p (r ^ (p + 1))

/-- The do-while search loop of OrderForEvaluating.  The loop of the source
runs until an explicit return or break; since the candidate order strictly
increases and the loop returns as soon as it passes the maximum order, the
fuel argument below is given a value large enough that it never reaches 0 (a
fact proved by the characterization lemmas). -/
def orderLoop (M : MathFns) (sea : SeriesExpansionAux) (ff r me : ℚ) (dim : ℕ)
    (mo : ℤ) : ℚ → ℕ → ℕ → Option (ℕ × ℚ)
  | _, _, 0 => none
  | rp, p, fuel + 1 =>
    if mo < (p : ℤ) then none
    else if factInvalid sea dim p then none
    else if me < loopRet M sea ff dim p (rp * r) then
      orderLoop M sea ff r me dim mo (rp * r) (p + 1) fuel
    else some (p, loopRet M sea ff dim p (rp * r))

/-- LocalExpansion::OrderForEvaluating.  The pair returned is the function
result together with the final value of the output parameter actual_error,
whose initial value is the argument ae; the -1 paths leave ae untouched. -/
def OrderForEvaluating (M : MathFns) (sea : SeriesExpansionAux)
    (st : LocalExpansion) (region : List (ℚ × ℚ)) (minDistSqd me ae : ℚ) :
    ℤ × ℚ :=
  if 1 ≤ regionRatio M st region then (-1, ae)
  else
    match orderLoop M sea (frontFactorOf M st minDistSqd) (regionRatio M st region) me
        region.length sea.maxOrder 1 0 (sea.maxOrder.toNat + 2) with
    | none => (-1, ae)
    | some (p, ret) => ((p : ℤ), ret)

/-- One call applied to a tracked expansion: accumulation, translation from a
far field, acting as the source of a local-to-local translation (which leaves
the source untouched), or acting as its destination. -/
inductive SeqOp where
  | accumulate (data : ℕ → ℕ → ℚ) (weights : ℕ → ℚ) (bIdx eIdx : ℕ) (ord : ℤ)
  | fromFarField (se : FarFieldExpansion)
  | toLocalAsSource (dest : LocalExpansion)
  | toLocalAsDest (src : LocalExpansion)

/-- Effect of one call on the tracked expansion.  A source of TranslateToLocal
is only read, so the tracked state is returned unchanged in that case. -/
def applyOp (sea : SeriesExpansionAux) (kd : KernelDerivative)
    (st : LocalExpansion) : SeqOp → LocalExpansion
  | .accumulate data weights bIdx eIdx ord =>
      AccumulateCoeffs sea kd data weights bIdx eIdx ord st
  | .fromFarField se => TranslateFromFarField sea kd se st
  | .toLocalAsSource _ => st
  | .toLocalAsDest src => TranslateToLocal sea kd src st

/-- A sequence of accumulate/translate calls applied to a tracked expansion. -/
def applySeq (sea : SeriesExpansionAux) (kd : KernelDerivative)
    (ops : List SeqOp) (st : LocalExpansion) : LocalExpansion :=
  ops.foldl (applyOp sea kd) st

theorem applyOp_order_mono (sea : SeriesExpansionAux) (kd : KernelDerivative)
    (st : LocalExpansion) (op : SeqOp) : st.order ≤ (applyOp sea kd st op).order := by
  cases op with
  | accumulate data weights bIdx eIdx ord =>
    simp only [applyOp, AccumulateCoeffs]
    split <;> omega
  | fromFarField se =>
    simp only [applyOp, TranslateFromFarField]
    split <;> omega
  | toLocalAsSource dest => exact le_refl _
  | toLocalAsDest src =>
    simp only [applyOp, TranslateToLocal]
    split <;> omega

/-- C1: For every LocalExpansion and every sequence of AccumulateCoeffs,
TranslateFromFarField and TranslateToLocal calls (the tracked expansion being
on either side of a translation), the order field after each call, hence
after the whole sequence, is at least its value before. -/
theorem order_monotone_applySeq (sea : SeriesExpansionAux) (kd : KernelDerivative)
    (ops : List SeqOp) (st : LocalExpansion) :
    st.order ≤ (applySeq sea kd ops st).order := by
  induction ops generalizing st with
  | nil => exact le_refl _
  | cons op ops ih =>
    calc st.order ≤ (applyOp sea kd st op).order := applyOp_order_mono sea kd st op
    _ ≤ (applySeq sea kd ops (applyOp sea kd st op)).order := ih _
    _ = (applySeq sea kd (op :: ops) st).order := rfl

/-- C9: After either Init overload the order is 0 and the coefficient buffer
has the maximum total coefficient count of the table as its length with every
entry zero; after the overload without a center, the center is the zero
vector of the ambient dimension (center allocation spec-modelled, see
InitNoCenter). -/
theorem init_state_zero (K : KernelModel) (sea : SeriesExpansionAux)
    (bandwidth : ℚ) (c : List ℚ) :
    (Init K sea bandwidth c).order = 0 ∧
    (Init K sea bandwidth c).coeffs.length = sea.maxTotalNumCoeffs ∧
    (∀ j, (Init K sea bandwidth c).coeffs.getD j 0 = 0) ∧
    (Init K sea bandwidth c).center = c ∧
    (InitNoCenter K sea bandwidth).order = 0 ∧
    (InitNoCenter K sea bandwidth).coeffs.length = sea.maxTotalNumCoeffs ∧
    (∀ j, (InitNoCenter K sea bandwidth).coeffs.getD j 0 = 0) ∧
    (InitNoCenter K sea bandwidth).center = List.replicate sea.dim 0 := by
  refine ⟨rfl, by simp [Init], ?_, rfl, rfl, by simp [InitNoCenter], ?_, rfl⟩ <;>
  · intro j
    simp [Init, InitNoCenter, List.getD_eq_getElem?_getD, List.getElem?_replicate]
    split <;> simp

theorem translateFromFarField_center (sea : SeriesExpansionAux)
    (kd : KernelDerivative) (se : FarFieldExpansion) (st : LocalExpansion) :
    (TranslateFromFarField sea kd se st).center = st.center := rfl

theorem translateFromFarField_length (sea : SeriesExpansionAux)
    (kd : KernelDerivative) (se : FarFieldExpansion) (st : LocalExpansion) :
    (TranslateFromFarField sea kd se st).coeffs.length = st.coeffs.length := by
  simp [TranslateFromFarField]

theorem ffAdditive_getD (sea : SeriesExpansionAux) (kd : KernelDerivative)
    (se : FarFieldExpansion) (st : LocalExpansion) (j : ℕ)
    (hj : j < st.coeffs.length) :
    (TranslateFromFarField sea kd se st).coeffs.getD j 0 =
      st.coeffs.getD j 0 + ffContribution sea kd st.center se j := by
  show (addInto st.coeffs _ _).getD j 0 = _
  rw [addInto_getD st.coeffs _ _ j hj, ffContribution]
  by_cases h : j < (sea.totalNumCoeffs se.order).toNat
  · rw [if_pos h, if_pos h, posNegSum_add]
  · rw [if_neg h, if_neg h]

theorem llAdditive_getD (sea : SeriesExpansionAux) (kd : KernelDerivative)
    (src dst : LocalExpansion) (j : ℕ) (hj : j < dst.coeffs.length) :
    (TranslateToLocal sea kd src dst).coeffs.getD j 0 =
      dst.coeffs.getD j 0 + llContribution sea kd src dst.center j := by
  show (addInto dst.coeffs _ _).getD j 0 = _
  rw [addInto_getD dst.coeffs _ _ j hj, llContribution]
  by_cases h : j < (sea.totalNumCoeffs src.order).toNat
  · rw [if_pos h, if_pos h, upperLoop_add]
    norm_num
  · rw [if_neg h, if_neg h]

/-- C2: Both translation operators are purely additive on the destination
coefficient buffer: after TranslateFromFarField or TranslateToLocal each
destination coefficient equals its previous value plus a contribution
(ffContribution, llContribution) computed only from the source expansion, the
two centers and the precomputed tables, never from the destination buffer;
consequently translating from two far-field sources in turn accumulates both
contributions. -/
theorem translate_additive (sea : SeriesExpansionAux) (kd : KernelDerivative)
    (se se2 : FarFieldExpansion) (st src dst : LocalExpansion) :
    (∀ j, j < st.coeffs.length →
      (TranslateFromFarField sea kd se st).coeffs.getD j 0 =
        st.coeffs.getD j 0 + ffContribution sea kd st.center se j) ∧
    (∀ j, j < dst.coeffs.length →
      (TranslateToLocal sea kd src dst).coeffs.getD j 0 =
        dst.coeffs.getD j 0 + llContribution sea kd src dst.center j) ∧
    (∀ j, j < st.coeffs.length →
      (TranslateFromFarField sea kd se2 (TranslateFromFarField sea kd se st)).coeffs.getD j 0 =
        st.coeffs.getD j 0 + ffContribution sea kd st.center se j +
          ffContribution sea kd st.center se2 j) := by
  refine ⟨fun j hj => ffAdditive_getD sea kd se st j hj,
    fun j hj => llAdditive_getD sea kd src dst j hj, fun j hj => ?_⟩
  rw [ffAdditive_getD sea kd se2 (TranslateFromFarField sea kd se st) j
      (by rw [translateFromFarField_length]; exact hj),
    translateFromFarField_center, ffAdditive_getD sea kd se st j hj]

/-- Witness for C2 at a concrete instance. -/
theorem translate_additive_witness :
    (0 < (LocalExpansion.mk 1 [0] [0, 0] 1).coeffs.length) ∧
    (TranslateFromFarField
        (SeriesExpansionAux.mk 1 5 8 (fun o => o + 1) (fun j => [(j : ℤ)])
          (fun _ => 1) (fun _ => 1) (fun _ => 1) (fun j => [j]) (fun _ _ => 1))
        (KernelDerivative.mk (fun _ => 1) (fun _ _ => 1))
        (FarFieldExpansion.mk 1 [1] [1] 0)
        (LocalExpansion.mk 1 [0] [0, 0] 1)).coeffs.getD 0 0 =
      (LocalExpansion.mk 1 [0] [0, 0] 1).coeffs.getD 0 0 +
        ffContribution
          (SeriesExpansionAux.mk 1 5 8 (fun o => o + 1) (fun j => [(j : ℤ)])
            (fun _ => 1) (fun _ => 1) (fun _ => 1) (fun j => [j]) (fun _ _ => 1))
          (KernelDerivative.mk (fun _ => 1) (fun _ _ => 1))
          (LocalExpansion.mk 1 [0] [0, 0] 1).center
          (FarFieldExpansion.mk 1 [1] [1] 0) 0 :=
  ⟨by decide,
    (translate_additive
      (SeriesExpansionAux.mk 1 5 8 (fun o => o + 1) (fun j => [(j : ℤ)])
        (fun _ => 1) (fun _ => 1) (fun _ => 1) (fun j => [j]) (fun _ _ => 1))
      (KernelDerivative.mk (fun _ => 1) (fun _ _ => 1))
      (FarFieldExpansion.mk 1 [1] [1] 0) (FarFieldExpansion.mk 1 [1] [1] 0)
      (LocalExpansion.mk 1 [0] [0, 0] 1)
      (LocalExpansion.mk 1 [0] [0, 0] 1)
      (LocalExpansion.mk 1 [0] [0, 0] 1)).1 0 (by decide)⟩

/-- C3 amended: TranslateFromFarField updates exactly the destination
multi-indices below the coefficient count of the SOURCE (far-field) order:
each of those receives the normalized sum over every source multi-index of
the source coefficient times the partial derivative at the component-wise sum
of the two multi-indices; destination indices at or beyond that count are
unchanged, even when the destination order is higher. -/
theorem translateFromFarField_update_bounds (sea : SeriesExpansionAux)
    (kd : KernelDerivative) (se : FarFieldExpansion) (st : LocalExpansion)
    (j : ℕ) (hj : j < st.coeffs.length) :
    (j < (sea.totalNumCoeffs se.order).toNat →
      (TranslateFromFarField sea kd se st).coeffs.getD j 0 =
        st.coeffs.getD j 0 +
          (∑ k ∈ Finset.range (sea.totalNumCoeffs se.order).toNat,
            se.coeffs.getD k 0 *
              kd.ComputePartialDerivative (ffCentDiff sea kd st.center se)
                (betaPlusAlpha sea.dim (sea.multiindex j) (sea.multiindex k))) *
            sea.negInvMultiindexFactorials j) ∧
    ((sea.totalNumCoeffs se.order).toNat ≤ j →
      (TranslateFromFarField sea kd se st).coeffs.getD j 0 = st.coeffs.getD j 0) := by
  constructor
  · intro hlt
    rw [ffAdditive_getD sea kd se st j hj, ffContribution, if_pos hlt]
    rfl
  · intro hge
    rw [ffAdditive_getD sea kd se st j hj, ffContribution, if_neg (by omega)]
    exact add_zero _

/-- Concrete table used by the counterexample to C3. -/
def seaCx : SeriesExpansionAux :=
  SeriesExpansionAux.mk 1 5 8 (fun o => o + 1) (fun j => [(j : ℤ)])
    (fun _ => 1) (fun _ => 1) (fun _ => 1) (fun j => [j]) (fun _ _ => 1)

/-- Concrete kernel-derivative generator used by the counterexample to C3. -/
def kdCx : KernelDerivative := KernelDerivative.mk (fun _ => 1) (fun _ _ => 1)

/-- Concrete destination expansion of order 1 used by the counterexample. -/
def stCx : LocalExpansion := LocalExpansion.mk 1 [0] [0, 0] 1

/-- Concrete far-field source of order 0 used by the counterexample. -/
def seCx : FarFieldExpansion := FarFieldExpansion.mk 1 [1] [1] 0

/-- Counterexample to C3 as stated: with a destination of order 1 and a
far-field source of order 0, the destination order after the call is 1 and
its coefficient count is 2, but destination index 1 does NOT receive the
claimed normalized sum over the source multi-indices (the loop bound is the
source coefficient count, 1, so index 1 is left unchanged at 0 while the
claimed sum adds 1). -/
theorem translateFromFarField_full_update_cex :
    ¬ (∀ j < (seaCx.totalNumCoeffs
          (TranslateFromFarField seaCx kdCx seCx stCx).order).toNat,
        (TranslateFromFarField seaCx kdCx seCx stCx).coeffs.getD j 0 =
          stCx.coeffs.getD j 0 +
            (∑ k ∈ Finset.range (seaCx.totalNumCoeffs seCx.order).toNat,
              seCx.coeffs.getD k 0 *
                kdCx.ComputePartialDerivative (ffCentDiff seaCx kdCx stCx.center seCx)
                  (betaPlusAlpha seaCx.dim (seaCx.multiindex j) (seaCx.multiindex k))) *
              seaCx.negInvMultiindexFactorials j) := by
  with_unfolding_all decide

/-- Witness for the amended C3 at a concrete instance. -/
theorem translateFromFarField_update_bounds_witness :
    (1 < stCx.coeffs.length ∧ (seaCx.totalNumCoeffs seCx.order).toNat ≤ 1) ∧
    (TranslateFromFarField seaCx kdCx seCx stCx).coeffs.getD 1 0 =
      stCx.coeffs.getD 1 0 :=
  ⟨⟨by decide, by decide⟩,
    (translateFromFarField_update_bounds seaCx kdCx seCx stCx 1 (by decide)).2
      (by decide)⟩

/-- C7: For every LocalExpansion of order 0 (with the external table reporting
one coefficient at order 0), EvaluateField returns the zero-order coefficient
for every query, in both the matrix-row form and the explicit-point form, and
for arbitrary stale contents of the temporary monomial buffer. -/
theorem evaluateField_order_zero_const (sea : SeriesExpansionAux)
    (kd : KernelDerivative) (st : LocalExpansion) (q : EvalQuery) (junk : ℕ → ℚ)
    (h0 : st.order = 0) (h1 : sea.totalNumCoeffs 0 = 1) :
    EvaluateField sea kd st q junk = st.coeffs.getD 0 0 := by
  rw [EvaluateField, h0, h1]
  simp [kLoop, List.range_succ]

/-- Witness for C7 at a concrete instance (explicit-point query). -/
theorem evaluateField_order_zero_const_witness :
    ((LocalExpansion.mk 1 [0] [5, 3] 0).order = 0 ∧ seaCx.totalNumCoeffs 0 = 1) ∧
    EvaluateField seaCx kdCx (LocalExpansion.mk 1 [0] [5, 3] 0)
        (EvalQuery.point [9]) (fun _ => 7) =
      (LocalExpansion.mk 1 [0] [5, 3] 0).coeffs.getD 0 0 :=
  ⟨⟨rfl, by decide⟩,
    evaluateField_order_zero_const seaCx kdCx (LocalExpansion.mk 1 [0] [5, 3] 0)
      (EvalQuery.point [9]) (fun _ => 7) rfl (by decide)⟩

theorem accPoints_length (tnc : ℕ) (delta : ℕ → ℕ → ℚ) :
    ∀ (cnt r : ℕ) (coeffs : List ℚ),
      (accPoints tnc delta r cnt coeffs).length = coeffs.length := by
  intro cnt
  induction cnt with
  | zero => intro r coeffs; rfl
  | succ cnt ih =>
    intro r coeffs
    rw [accPoints, ih, addInto_length]

theorem accPoints_getD (tnc : ℕ) (delta : ℕ → ℕ → ℚ) :
    ∀ (cnt r : ℕ) (coeffs : List ℚ) (j : ℕ), j < coeffs.length →
      (accPoints tnc delta r cnt coeffs).getD j 0 =
        coeffs.getD j 0 +
          (if j < tnc then ∑ i ∈ Finset.range cnt, delta (r + i) j else 0) := by
  intro cnt
  induction cnt with
  | zero => intro r coeffs j hj; simp [accPoints]
  | succ cnt ih =>
    intro r coeffs j hj
    rw [accPoints, ih (r + 1) (addInto coeffs tnc (delta r)) j
        (by rw [addInto_length]; exact hj),
      addInto_getD coeffs tnc _ j hj]
    by_cases h : j < tnc
    · rw [if_pos h, if_pos h, if_pos h, Finset.sum_range_succ' (fun i => delta (r + i) j) cnt]
      have harg : ∀ i : ℕ, r + 1 + i = r + (i + 1) := by omega
      simp only [harg]
      rw [add_assoc, add_comm (delta r j), Nat.add_zero]
    · rw [if_neg h, if_neg h, if_neg h]
      ring

theorem accDelta_congr (sea : SeriesExpansionAux) (kd : KernelDerivative)
    (st : LocalExpansion) (data1 data2 : ℕ → ℕ → ℚ) (w1 w2 : ℕ → ℚ)
    (r s : ℕ) (hw : w2 r = w1 s)
    (hd : ∀ d ∈ Finset.range sea.dim, data2 d r = data1 d s) (j : ℕ) :
    accDelta sea kd st data2 w2 r j = accDelta sea kd st data1 w1 s j := by
  unfold accDelta accDisplacement
  rw [hw]
  have : ((List.range sea.dim).map
      (fun d => (st.center.getD d 0 - data2 d r) / kd.BandwidthFactor st.kernelBwSq)) =
      ((List.range sea.dim).map
      (fun d => (st.center.getD d 0 - data1 d s) / kd.BandwidthFactor st.kernelBwSq)) := by
    apply List.map_congr_left
    intro d hdmem
    rw [hd d (by simpa using hdmem)]
  rw [this]

/-- C8: AccumulateCoeffs is permutation-invariant over the exact arithmetic of
the model: accumulating a second dataset that presents the same multiset of
weighted points (via a bijection f of the index range with inverse g) with
the same requested order produces an equal LocalExpansion state, because each
point contributes a fixed additive term independent of the others. -/
theorem accumulateCoeffs_perm_invariant (sea : SeriesExpansionAux)
    (kd : KernelDerivative) (data1 data2 : ℕ → ℕ → ℚ) (w1 w2 : ℕ → ℚ)
    (bIdx eIdx : ℕ) (ord : ℤ) (st : LocalExpansion) (f g : ℕ → ℕ)
    (hf : ∀ r ∈ Finset.Ico bIdx eIdx, f r ∈ Finset.Ico bIdx eIdx)
    (hg : ∀ s ∈ Finset.Ico bIdx eIdx, g s ∈ Finset.Ico bIdx eIdx)
    (hgf : ∀ r ∈ Finset.Ico bIdx eIdx, g (f r) = r)
    (hfg : ∀ s ∈ Finset.Ico bIdx eIdx, f (g s) = s)
    (hw : ∀ r ∈ Finset.Ico bIdx eIdx, w2 r = w1 (f r))
    (hd : ∀ r ∈ Finset.Ico bIdx eIdx, ∀ d ∈ Finset.range sea.dim,
      data2 d r = data1 d (f r)) :
    AccumulateCoeffs sea kd data2 w2 bIdx eIdx ord st =
      AccumulateCoeffs sea kd data1 w1 bIdx eIdx ord st := by
  unfold AccumulateCoeffs
  congr 1
  apply List.ext_getElem
  · rw [accPoints_length, accPoints_length]
  · intro j hj1 hj2
    have hjlen : j < st.coeffs.length := by
      rw [accPoints_length] at hj1; exact hj1
    rw [← List.getD_eq_getElem _ 0 hj1, ← List.getD_eq_getElem _ 0 hj2,
      accPoints_getD _ _ _ _ _ j hjlen, accPoints_getD _ _ _ _ _ j hjlen]
    by_cases h : j < (sea.totalNumCoeffs ord).toNat
    · rw [if_pos h, if_pos h]
      have hsum :
          (∑ i ∈ Finset.range (eIdx - bIdx), accDelta sea kd st data2 w2 (bIdx + i) j) =
          ∑ i ∈ Finset.range (eIdx - bIdx), accDelta sea kd st data1 w1 (bIdx + i) j := by
        rw [← Finset.sum_Ico_eq_sum_range (fun r => accDelta sea kd st data2 w2 r j) bIdx eIdx,
          ← Finset.sum_Ico_eq_sum_range (fun r => accDelta sea kd st data1 w1 r j) bIdx eIdx]
        refine Finset.sum_nbij' f g hf hg hgf hfg ?_
        intro r hr
        exact accDelta_congr sea kd st data1 data2 w1 w2 r (f r) (hw r hr) (hd r hr) j
      rw [hsum]
    · rw [if_neg h, if_neg h]

/-- The index permutation used by the witness for C8: swap points 0 and 1. -/
def swapW : ℕ → ℕ := fun r => if r = 0 then 1 else if r = 1 then 0 else r

/-- First dataset of the witness for C8. -/
def dataW1 : ℕ → ℕ → ℚ := fun _ r => if r = 0 then 3 else 5

/-- Second dataset of the witness for C8: the same two points in the other
processing order. -/
def dataW2 : ℕ → ℕ → ℚ := fun _ r => if r = 0 then 5 else 3

/-- Weights of the first dataset of the witness for C8. -/
def weightsW1 : ℕ → ℚ := fun r => if r = 0 then 2 else 7

/-- Weights of the second dataset of the witness for C8. -/
def weightsW2 : ℕ → ℚ := fun r => if r = 0 then 7 else 2

/-- Witness for C8 at a concrete instance: two points processed in either
order give the same state. -/
theorem accumulateCoeffs_perm_invariant_witness :
    ((∀ r ∈ Finset.Ico 0 2, swapW r ∈ Finset.Ico 0 2) ∧
     (∀ r ∈ Finset.Ico 0 2, swapW (swapW r) = r) ∧
     (∀ r ∈ Finset.Ico 0 2, weightsW2 r = weightsW1 (swapW r)) ∧
     (∀ r ∈ Finset.Ico 0 2, ∀ d ∈ Finset.range seaCx.dim,
        dataW2 d r = dataW1 d (swapW r))) ∧
    AccumulateCoeffs seaCx kdCx dataW2 weightsW2 0 2 1 stCx =
      AccumulateCoeffs seaCx kdCx dataW1 weightsW1 0 2 1 stCx :=
  ⟨⟨by decide, by decide, by decide, by decide⟩,
    accumulateCoeffs_perm_invariant seaCx kdCx dataW1 dataW2 weightsW1 weightsW2
      0 2 1 stCx swapW swapW (by decide) (by decide) (by decide) (by decide)
      (by decide) (by decide)⟩

theorem orderLoop_some_iff (M : MathFns) (sea : SeriesExpansionAux)
    (ff r me : ℚ) (dim : ℕ) (mo : ℤ) :
    ∀ (fuel p : ℕ) (rp : ℚ), rp = r ^ p → mo.toNat + 2 ≤ p + fuel →
      ∀ (q : ℕ) (e : ℚ),
        (orderLoop M sea ff r me dim mo rp p fuel = some (q, e) ↔
          (p ≤ q ∧ (q : ℤ) ≤ mo ∧ ¬ factInvalid sea dim q ∧
            retAt M sea ff r dim q ≤ me ∧ e = retAt M sea ff r dim q ∧
            ∀ j, p ≤ j → j < q →
              ¬ factInvalid sea dim j ∧ me < retAt M sea ff r dim j)) := by
  intro fuel
  induction fuel with
  | zero =>
    intro p rp hrp hfuel q e
    constructor
    · intro h; exact absurd h (by simp [orderLoop])
    · rintro ⟨hpq, hqmo, -, -, -, -⟩
      exfalso; omega
  | succ fuel ih =>
    intro p rp hrp hfuel q e
    rw [orderLoop]
    by_cases h1 : mo < (p : ℤ)
    · rw [if_pos h1]
      constructor
      · intro h; exact absurd h (by simp)
      · rintro ⟨hpq, hqmo, -, -, -, -⟩
        exfalso; omega
    · rw [if_neg h1]
      by_cases h2 : factInvalid sea dim p
      · rw [if_pos h2]
        constructor
        · intro h; exact absurd h (by simp)
        · rintro ⟨hpq, hqmo, hqf, hqr, he, hpre⟩
          exfalso
          rcases Nat.eq_or_lt_of_le hpq with heq | hlt
          · exact hqf (heq ▸ h2)
          · exact (hpre p le_rfl hlt).1 h2
      · rw [if_neg h2]
        have hret : loopRet M sea ff dim p (rp * r) = retAt M sea ff r dim p := by
          rw [hrp, retAt, ← pow_succ]
        by_cases h3 : me < loopRet M sea ff dim p (rp * r)
        · rw [if_pos h3]
          rw [hret] at h3
          rw [ih (p + 1) (rp * r) (by rw [hrp, pow_succ]) (by omega) q e]
          constructor
          · rintro ⟨hpq, hqmo, hqf, hqr, he, hpre⟩
            refine ⟨by omega, hqmo, hqf, hqr, he, fun j hj1 hj2 => ?_⟩
            rcases Nat.eq_or_lt_of_le hj1 with heq | hlt
            · exact heq ▸ ⟨h2, h3⟩
            · exact hpre j hlt hj2
          · rintro ⟨hpq, hqmo, hqf, hqr, he, hpre⟩
            have hne : p ≠ q := by
              rintro rfl
              exact absurd hqr (not_le.mpr h3)
            refine ⟨by omega, hqmo, hqf, hqr, he, fun j hj1 hj2 => hpre j (by omega) hj2⟩
        · rw [if_neg h3]
          rw [hret] at h3 ⊢
          constructor
          · intro h
            have hq : p = q ∧ retAt M sea ff r dim p = e := by
              have := Option.some.inj h
              exact ⟨congrArg Prod.fst this, congrArg Prod.snd this⟩
            obtain ⟨rfl, he⟩ := hq
            exact ⟨le_rfl, by omega, h2, not_lt.mp h3, he.symm,
              fun j hj1 hj2 => by omega⟩
          · rintro ⟨hpq, hqmo, hqf, hqr, he, hpre⟩
            have : q = p := by
              rcases Nat.eq_or_lt_of_le hpq with heq | hlt
              · omega
              · exact absurd (hpre p le_rfl hlt).2 (not_lt.mpr (not_lt.mp h3))
            subst this
            rw [he]

theorem orderLoop_none_iff (M : MathFns) (sea : SeriesExpansionAux)
    (ff r me : ℚ) (dim : ℕ) (mo : ℤ) :
    ∀ (fuel p : ℕ) (rp : ℚ), rp = r ^ p → mo.toNat + 2 ≤ p + fuel →
      (orderLoop M sea ff r me dim mo rp p fuel = none ↔
        ∃ m : ℕ, p ≤ m ∧
          (∀ j, p ≤ j → j < m →
            ((j : ℤ) ≤ mo ∧ ¬ factInvalid sea dim j ∧ me < retAt M sea ff r dim j)) ∧
          (mo < (m : ℤ) ∨ ((m : ℤ) ≤ mo ∧ factInvalid sea dim m))) := by
  intro fuel
  induction fuel with
  | zero =>
    intro p rp hrp hfuel
    constructor
    · intro _
      exact ⟨p, le_rfl, fun j hj1 hj2 => by omega, Or.inl (by omega)⟩
    · intro _; rfl
  | succ fuel ih =>
    intro p rp hrp hfuel
    rw [orderLoop]
    by_cases h1 : mo < (p : ℤ)
    · rw [if_pos h1]
      constructor
      · intro _
        exact ⟨p, le_rfl, fun j hj1 hj2 => by omega, Or.inl h1⟩
      · intro _; rfl
    · rw [if_neg h1]
      by_cases h2 : factInvalid sea dim p
      · rw [if_pos h2]
        constructor
        · intro _
          exact ⟨p, le_rfl, fun j hj1 hj2 => by omega, Or.inr ⟨not_lt.mp h1, h2⟩⟩
        · intro _; rfl
      · rw [if_neg h2]
        have hret : loopRet M sea ff dim p (rp * r) = retAt M sea ff r dim p := by
          rw [hrp, retAt, ← pow_succ]
        by_cases h3 : me < loopRet M sea ff dim p (rp * r)
        · rw [if_pos h3]
          rw [hret] at h3
          rw [ih (p + 1) (rp * r) (by rw [hrp, pow_succ]) (by omega)]
          constructor
          · rintro ⟨m, hpm, hpre, hreason⟩
            refine ⟨m, by omega, fun j hj1 hj2 => ?_, hreason⟩
            rcases Nat.eq_or_lt_of_le hj1 with heq | hlt
            · exact heq ▸ ⟨not_lt.mp h1, h2, h3⟩
            · exact hpre j hlt hj2
          · rintro ⟨m, hpm, hpre, hreason⟩
            have hne : m ≠ p := by
              rintro rfl
              rcases hreason with h | ⟨-, hf⟩
              · omega
              · exact h2 hf
            exact ⟨m, by omega, fun j hj1 hj2 => hpre j (by omega) hj2, hreason⟩
        · rw [if_neg h3]
          rw [hret] at h3
          constructor
          · intro h; exact absurd h (by simp)
          · rintro ⟨m, hpm, hpre, hreason⟩
            exfalso
            rcases Nat.eq_or_lt_of_le hpm with heq | hlt
            · subst heq
              rcases hreason with h | ⟨-, hf⟩
              · omega
              · exact h2 hf
            · exact absurd (hpre p le_rfl hlt).2.2 h3

/-- C4: OrderForEvaluating returns the sentinel -1 exactly when one of the
three failure conditions holds: the width ratio is at least 1, or every
candidate order up to the maximum supported order leaves the bound term above
max_error, or the search reaches a candidate order (all earlier candidates
passing) whose floor/ceiling factorial lookup returns the negative invalid
sentinel.  The embedding is a total function, so no exception is possible. -/
theorem orderForEvaluating_sentinel_iff (M : MathFns) (sea : SeriesExpansionAux)
    (st : LocalExpansion) (region : List (ℚ × ℚ)) (mds me ae : ℚ) :
    (OrderForEvaluating M sea st region mds me ae).1 = -1 ↔
      (1 ≤ regionRatio M st region ∨
       (∀ j : ℕ, (j : ℤ) ≤ sea.maxOrder →
          me < retAt M sea (frontFactorOf M st mds) (regionRatio M st region)
            region.length j) ∨
       (∃ m : ℕ, (m : ℤ) ≤ sea.maxOrder ∧ factInvalid sea region.length m ∧
          ∀ j, j < m → (¬ factInvalid sea region.length j ∧
            me < retAt M sea (frontFactorOf M st mds) (regionRatio M st region)
              region.length j))) := by
  unfold OrderForEvaluating
  by_cases hr : 1 ≤ regionRatio M st region
  · rw [if_pos hr]
    exact iff_of_true rfl (Or.inl hr)
  · rw [if_neg hr]
    rcases hloop : orderLoop M sea (frontFactorOf M st mds) (regionRatio M st region)
        me region.length sea.maxOrder 1 0 (sea.maxOrder.toNat + 2) with _ | ⟨q, e⟩
    · have hnone := (orderLoop_none_iff M sea (frontFactorOf M st mds)
        (regionRatio M st region) me region.length sea.maxOrder
        (sea.maxOrder.toNat + 2) 0 1 (pow_zero _).symm (by omega)).mp hloop
      obtain ⟨m, -, hpre, hreason⟩ := hnone
      rcases hreason with hmo | ⟨hmle, hfact⟩
      · refine iff_of_true rfl (Or.inr (Or.inl (fun j hj => ?_)))
        exact (hpre j (by omega) (by omega)).2.2
      · exact iff_of_true rfl (Or.inr (Or.inr ⟨m, hmle, hfact,
          fun j hj => ⟨(hpre j (by omega) hj).2.1, (hpre j (by omega) hj).2.2⟩⟩))
    · have hsome := (orderLoop_some_iff M sea (frontFactorOf M st mds)
        (regionRatio M st region) me region.length sea.maxOrder
        (sea.maxOrder.toNat + 2) 0 1 (pow_zero _).symm (by omega) q e).mp hloop
      obtain ⟨-, hqmo, hqf, hqr, -, hpre⟩ := hsome
      refine iff_of_false ?_ ?_
      · show ¬ ((q : ℤ) = -1)
        omega
      · rintro (h | h | ⟨m, hmmo, hmf, hmpre⟩)
        · exact hr h
        · exact absurd hqr (not_le.mpr (h q hqmo))
        · rcases lt_trichotomy m q with hmq | rfl | hqm
          · exact (hpre m (by omega) hmq).1 hmf
          · exact hqf hmf
          · exact absurd hqr (not_le.mpr (hmpre q hqm).2)

/-- C5: When OrderForEvaluating succeeds, the returned order is the smallest
candidate whose bound term is at or below max_error and the actual_error
output is exactly that bound term; and if every candidate up to the maximum
supported order keeps the bound term above max_error, the sentinel is
returned. -/
theorem orderForEvaluating_least_order (M : MathFns) (sea : SeriesExpansionAux)
    (st : LocalExpansion) (region : List (ℚ × ℚ)) (mds me ae : ℚ) :
    (∀ q : ℕ, (OrderForEvaluating M sea st region mds me ae).1 = (q : ℤ) →
      (retAt M sea (frontFactorOf M st mds) (regionRatio M st region)
          region.length q ≤ me ∧
       (∀ j, j < q → me < retAt M sea (frontFactorOf M st mds)
          (regionRatio M st region) region.length j) ∧
       (OrderForEvaluating M sea st region mds me ae).2 =
         retAt M sea (frontFactorOf M st mds) (regionRatio M st region)
           region.length q)) ∧
    ((∀ q : ℕ, (q : ℤ) ≤ sea.maxOrder →
        me < retAt M sea (frontFactorOf M st mds) (regionRatio M st region)
          region.length q) →
      (OrderForEvaluating M sea st region mds me ae).1 = -1) := by
  constructor
  · intro q hq
    revert hq
    unfold OrderForEvaluating
    by_cases hr : 1 ≤ regionRatio M st region
    · rw [if_pos hr]
      intro hq
      exfalso
      have : (-1 : ℤ) = (q : ℤ) := hq
      omega
    · rw [if_neg hr]
      rcases hloop : orderLoop M sea (frontFactorOf M st mds) (regionRatio M st region)
          me region.length sea.maxOrder 1 0 (sea.maxOrder.toNat + 2) with _ | ⟨q2, e⟩
      · intro hq
        exfalso
        have : (-1 : ℤ) = (q : ℤ) := hq
        omega
      · intro hq
        have hq2 : q2 = q := by
          have : ((q2 : ℤ), e).1 = (q : ℤ) := hq
          simpa using this
        subst hq2
        have hsome := (orderLoop_some_iff M sea (frontFactorOf M st mds)
          (regionRatio M st region) me region.length sea.maxOrder
          (sea.maxOrder.toNat + 2) 0 1 (pow_zero _).symm (by omega) q2 e).mp hloop
        obtain ⟨-, -, -, hqr, he, hpre⟩ := hsome
        exact ⟨hqr, fun j hj => (hpre j (by omega) hj).2, by simpa using he⟩
  · intro hall
    unfold OrderForEvaluating
    by_cases hr : 1 ≤ regionRatio M st region
    · rw [if_pos hr]
    · rw [if_neg hr]
      rcases hloop : orderLoop M sea (frontFactorOf M st mds) (regionRatio M st region)
          me region.length sea.maxOrder 1 0 (sea.maxOrder.toNat + 2) with _ | ⟨q, e⟩
      · rfl
      · exfalso
        have hsome := (orderLoop_some_iff M sea (frontFactorOf M st mds)
          (regionRatio M st region) me region.length sea.maxOrder
          (sea.maxOrder.toNat + 2) 0 1 (pow_zero _).symm (by omega) q e).mp hloop
        obtain ⟨-, hqmo, -, hqr, -, -⟩ := hsome
        exact absurd hqr (not_le.mpr (hall q hqmo))

/-- C6: order selection is monotone in the error budget: with the region and
distance fixed, if the search succeeds at order p1 for a budget e1 then for
any larger budget e2 it also succeeds, at an order at most p1. -/
theorem orderForEvaluating_monotone_error (M : MathFns) (sea : SeriesExpansionAux)
    (st : LocalExpansion) (region : List (ℚ × ℚ)) (mds ae1 ae2 e1 e2 : ℚ)
    (h12 : e1 ≤ e2) (p1 : ℕ)
    (h1 : (OrderForEvaluating M sea st region mds e1 ae1).1 = (p1 : ℤ)) :
    ∃ p2 : ℕ, (OrderForEvaluating M sea st region mds e2 ae2).1 = (p2 : ℤ) ∧
      p2 ≤ p1 := by
  revert h1
  unfold OrderForEvaluating
  by_cases hr : 1 ≤ regionRatio M st region
  · simp only [if_pos hr]
    intro h1
    exfalso
    have : (-1 : ℤ) = (p1 : ℤ) := h1
    omega
  · simp only [if_neg hr]
    rcases hloop : orderLoop M sea (frontFactorOf M st mds) (regionRatio M st region)
        e1 region.length sea.maxOrder 1 0 (sea.maxOrder.toNat + 2) with _ | ⟨q1, d1⟩
    · intro h1
      exfalso
      have : (-1 : ℤ) = (p1 : ℤ) := h1
      omega
    · intro h1
      have hq1 : q1 = p1 := by
        have : ((q1 : ℤ), d1).1 = (p1 : ℤ) := h1
        simpa using this
      subst hq1
      have hsome := (orderLoop_some_iff M sea (frontFactorOf M st mds)
        (regionRatio M st region) e1 region.length sea.maxOrder
        (sea.maxOrder.toNat + 2) 0 1 (pow_zero _).symm (by omega) q1 d1).mp hloop
      obtain ⟨-, hqmo, hqf, hqr, -, hpre⟩ := hsome
      have hex : ∃ n : ℕ, retAt M sea (frontFactorOf M st mds)
          (regionRatio M st region) region.length n ≤ e2 :=
        ⟨q1, le_trans hqr h12⟩
      have hq2le : Nat.find hex ≤ q1 := Nat.find_min' hex (le_trans hqr h12)
      have hq2spec := Nat.find_spec hex
      have hq2min := fun j (hj : j < Nat.find hex) => Nat.find_min hex hj
      have hsome2 := (orderLoop_some_iff M sea (frontFactorOf M st mds)
        (regionRatio M st region) e2 region.length sea.maxOrder
        (sea.maxOrder.toNat + 2) 0 1 (pow_zero _).symm (by omega) (Nat.find hex)
        (retAt M sea (frontFactorOf M st mds) (regionRatio M st region)
          region.length (Nat.find hex))).mpr
        ⟨by omega, by omega, ?_, hq2spec, rfl, ?_⟩
      · rw [hsome2]
        exact ⟨Nat.find hex, rfl, hq2le⟩
      · rcases Nat.eq_or_lt_of_le hq2le with heq | hlt
        · exact heq ▸ hqf
        · exact (hpre (Nat.find hex) (by omega) hlt).1
      · intro j hj1 hj2
        refine ⟨?_, not_le.mp (hq2min j hj2)⟩
        have : j < q1 := by omega
        exact (hpre j (by omega) this).1

/-- C10: on every sentinel path of OrderForEvaluating the actual_error output
parameter is left at its incoming value; it is written only on success. -/
theorem orderForEvaluating_sentinel_preserves_actual_error (M : MathFns)
    (sea : SeriesExpansionAux) (st : LocalExpansion) (region : List (ℚ × ℚ))
    (mds me ae : ℚ)
    (h : (OrderForEvaluating M sea st region mds me ae).1 = -1) :
    (OrderForEvaluating M sea st region mds me ae).2 = ae := by
  revert h
  unfold OrderForEvaluating
  by_cases hr : 1 ≤ regionRatio M st region
  · rw [if_pos hr]
    intro _; rfl
  · rw [if_neg hr]
    rcases hloop : orderLoop M sea (frontFactorOf M st mds) (regionRatio M st region)
        me region.length sea.maxOrder 1 0 (sea.maxOrder.toNat + 2) with _ | ⟨q, e⟩
    · intro _; rfl
    · intro h
      exfalso
      have : (q : ℤ) = -1 := h
      omega

/-- Concrete math-function model used by the order-selection witnesses. -/
def MW : MathFns := MathFns.mk (fun _ => 1) (fun _ => 1)

/-- Witness for C5 at a concrete instance: the search succeeds at order 1,
bound terms being 1/2 then 1/4 against an error budget of 1/4. -/
theorem orderForEvaluating_least_order_witness :
    (OrderForEvaluating MW seaCx stCx [(0, 1)] 0 (1/4) 7).1 = ((1 : ℕ) : ℤ) ∧
    (retAt MW seaCx (frontFactorOf MW stCx 0) (regionRatio MW stCx [(0, 1)]) 1 1 ≤ 1/4 ∧
     (∀ j, j < 1 → (1 : ℚ)/4 < retAt MW seaCx (frontFactorOf MW stCx 0)
        (regionRatio MW stCx [(0, 1)]) 1 j) ∧
     (OrderForEvaluating MW seaCx stCx [(0, 1)] 0 (1/4) 7).2 =
       retAt MW seaCx (frontFactorOf MW stCx 0) (regionRatio MW stCx [(0, 1)]) 1 1) :=
  ⟨by with_unfolding_all decide,
    (orderForEvaluating_least_order MW seaCx stCx [(0, 1)] 0 (1/4) 7).1 1
      (by with_unfolding_all decide)⟩

/-- Witness for C6 at a concrete instance: raising the budget from 1/4 to 1/2
keeps success and does not increase the order. -/
theorem orderForEvaluating_monotone_error_witness :
    ((1 : ℚ)/4 ≤ 1/2 ∧
     (OrderForEvaluating MW seaCx stCx [(0, 1)] 0 (1/4) 7).1 = ((1 : ℕ) : ℤ)) ∧
    ∃ p2 : ℕ, (OrderForEvaluating MW seaCx stCx [(0, 1)] 0 (1/2) 9).1 = (p2 : ℤ) ∧
      p2 ≤ 1 :=
  ⟨⟨by norm_num, by with_unfolding_all decide⟩,
    orderForEvaluating_monotone_error MW seaCx stCx [(0, 1)] 0 7 9 (1/4) (1/2)
      (by norm_num) 1 (by with_unfolding_all decide)⟩

/-- Witness for C10 at a concrete instance: a region too wide gives the
sentinel and leaves the actual-error output at its incoming value 7. -/
theorem orderForEvaluating_sentinel_preserves_actual_error_witness :
    ((OrderForEvaluating MW seaCx stCx [(0, 10)] 0 (1/4) 7).1 = -1) ∧
    (OrderForEvaluating MW seaCx stCx [(0, 10)] 0 (1/4) 7).2 = 7 :=
  ⟨by with_unfolding_all decide,
    orderForEvaluating_sentinel_preserves_actual_error MW seaCx stCx [(0, 10)] 0
      (1/4) 7 (by with_unfolding_all decide)⟩
